import Mathlib

/-
Shallow embedding of the aeon-market-scanner-rs arbitrage core.

Conventions of the embedding:
* Rust `f64` price/quantity values are modelled as exact rationals (`ℚ`);
  the arithmetic expressions are translated term by term from the source.
* Rust `HashMap`s used only through `get`/`insert` are modelled as
  association lists or as functions into `Option`.
* Strings are Lean `String`s; the symbol codec additionally works on
  `List Char` (the `.data` of a `String`), since the source only ever
  manipulates ASCII symbol strings character-wise.
-/

namespace MarketScanner

/-- Enumeration of CEX venues, from src/common/exchange.rs (`CexExchange`). -/
inductive CexExchange
  | binance
  | bybit
  | mexc
  | okx
  | gateio
  | kucoin
  | bitget
  | btcturk
  | htx
  | coinbase
  | kraken
  | bitfinex
  | upbit
  | cryptocom
deriving DecidableEq, Repr

/-- Enumeration of DEX aggregators, from src/common/exchange.rs (`DexAggregator`). -/
inductive DexAggregator
  | kyberSwap
deriving DecidableEq, Repr

/-- Tagged venue, from src/common/exchange.rs (`Exchange`). -/
inductive Exchange
  | cex (c : CexExchange)
  | dex (d : DexAggregator)
deriving DecidableEq, Repr

/-- Default taker fee table, from src/common/commission.rs (`taker_fee_rate`). -/
def takerFeeRate : CexExchange → ℚ
  | .binance => 1/1000
  | .bybit => 1/1000
  | .mexc => 5/10000
  | .okx => 1/1000
  | .gateio => 1/1000
  | .kucoin => 1/1000
  | .bitget => 1/1000
  | .btcturk => 12/10000
  | .htx => 2/1000
  | .coinbase => 5/1000
  | .kraken => 26/10000
  | .bitfinex => 2/1000
  | .upbit => 25/10000
  | .cryptocom => 4/10000

/-- DEX fee table, from src/common/commission.rs (`dex_taker_fee_rate`). -/
def dexTakerFeeRate : DexAggregator → ℚ
  | .kyberSwap => 0

/-- User fee overrides, from src/common/commission.rs (`FeeOverrides`);
the two `HashMap`s are modelled as functions into `Option ℚ`. -/
structure FeeOverrides where
  cexTaker : CexExchange → Option ℚ
  dexTaker : DexAggregator → Option ℚ

/-- Fee rate with overrides, from src/common/commission.rs
(`taker_fee_rate_with_overrides`). -/
def takerFeeRateWithOverrides (cex : CexExchange) (overrides : Option FeeOverrides) : ℚ :=
  match overrides with
  | some ovr =>
    match ovr.cexTaker cex with
    | some v => v
    | none => takerFeeRate cex
  | none => takerFeeRate cex

/-- DEX fee rate with overrides, from src/common/commission.rs
(`dex_taker_fee_rate_with_overrides`). -/
def dexTakerFeeRateWithOverrides (dex : DexAggregator) (overrides : Option FeeOverrides) : ℚ :=
  match overrides with
  | some ovr =>
    match ovr.dexTaker dex with
    | some v => v
    | none => dexTakerFeeRate dex
  | none => dexTakerFeeRate dex

/-- Fee rate for any venue, from src/common/commission.rs (`fee_rate`). -/
def feeRate : Exchange → ℚ
  | .cex c => takerFeeRate c
  | .dex d => dexTakerFeeRate d

/-- Fee rate for any venue with overrides, from src/common/commission.rs
(`fee_rate_with_overrides`). -/
def feeRateWithOverrides (exchange : Exchange) (overrides : Option FeeOverrides) : ℚ :=
  match exchange with
  | .cex c => takerFeeRateWithOverrides c overrides
  | .dex d => dexTakerFeeRateWithOverrides d overrides

/-- Commission side, from src/common/commission.rs (`AmountSide`). -/
inductive AmountSide
  | buy
  | sell
deriving DecidableEq, Repr

/-- Effective amount after commission with overrides, from
src/common/commission.rs (`effective_price_with_overrides`). -/
def effectivePriceWithOverrides (amount : ℚ) (exchange : Exchange) (side : AmountSide)
    (overrides : Option FeeOverrides) : ℚ :=
  let fee := feeRateWithOverrides exchange overrides
  match side with
  | .buy => amount * (1 + fee)
  | .sell => amount * (1 - fee)

/-- CEX quote record, from src/common/price.rs (`CexPrice`). -/
structure CexPrice where
  symbol : String
  midPrice : ℚ
  bidPrice : ℚ
  askPrice : ℚ
  bidQty : ℚ
  askQty : ℚ
  timestamp : ℕ
  exchange : Exchange
deriving DecidableEq, Repr

/-- DEX route summary, from src/common/price.rs (`DexRouteSummary`). -/
structure DexRouteSummary where
  tokenIn : String
  tokenOut : String
  amountIn : ℚ
  amountOut : ℚ
  amountInWei : String
  amountOutWei : String
  gas : Option String
  gasPrice : Option String
  gasUsd : Option ℚ
deriving DecidableEq, Repr

/-- DEX quote record, from src/common/price.rs (`DexPrice`); the raw JSON
route blobs are modelled as opaque strings. -/
structure DexPrice where
  symbol : String
  midPrice : ℚ
  bidPrice : ℚ
  askPrice : ℚ
  bidQty : ℚ
  askQty : ℚ
  timestamp : ℕ
  exchange : Exchange
  bidRouteSummary : Option DexRouteSummary
  askRouteSummary : Option DexRouteSummary
  bidRouteData : Option String
  askRouteData : Option String
deriving DecidableEq, Repr

/-- Price payload of an opportunity leg, from src/scanner/opportunity.rs
(`PriceData`). -/
inductive PriceData
  | cex (p : CexPrice)
  | dex (p : DexPrice)
deriving DecidableEq, Repr

/-- Venue tag of a price payload (helper for stating theorems). -/
def PriceData.exchange : PriceData → Exchange
  | .cex p => p.exchange
  | .dex p => p.exchange

/-- Ask price of a price payload (helper for stating theorems). -/
def PriceData.askPrice : PriceData → ℚ
  | .cex p => p.askPrice
  | .dex p => p.askPrice

/-- Bid price of a price payload (helper for stating theorems). -/
def PriceData.bidPrice : PriceData → ℚ
  | .cex p => p.bidPrice
  | .dex p => p.bidPrice

/-- Ask quantity of a price payload (helper for stating theorems). -/
def PriceData.askQty : PriceData → ℚ
  | .cex p => p.askQty
  | .dex p => p.askQty

/-- Bid quantity of a price payload (helper for stating theorems). -/
def PriceData.bidQty : PriceData → ℚ
  | .cex p => p.bidQty
  | .dex p => p.bidQty

/-- Symbol of a price payload (helper for stating theorems). -/
def PriceData.symbol : PriceData → String
  | .cex p => p.symbol
  | .dex p => p.symbol

/-- Arbitrage opportunity record, from src/scanner/opportunity.rs
(`ArbitrageOpportunity`). -/
structure ArbitrageOpportunity where
  sourceExchange : String
  destinationExchange : String
  symbol : String
  effectiveAsk : ℚ
  effectiveBid : ℚ
  spread : ℚ
  spreadPercentage : ℚ
  executableQuantity : ℚ
  sourceCommissionPercent : ℚ
  destinationCommissionPercent : ℚ
  totalCommissionQuote : ℚ
  sourceLeg : PriceData
  destinationLeg : PriceData
deriving DecidableEq, Repr

/-- Venue display name, from src/scanner/mod.rs (`ArbitrageScanner::exchange_name`). -/
def exchangeName : Exchange → String
  | .cex .binance => "Binance"
  | .cex .bybit => "Bybit"
  | .cex .mexc => "MEXC"
  | .cex .okx => "OKX"
  | .cex .gateio => "Gateio"
  | .cex .kucoin => "Kucoin"
  | .cex .bitget => "Bitget"
  | .cex .btcturk => "Btcturk"
  | .cex .htx => "HTX"
  | .cex .coinbase => "Coinbase"
  | .cex .kraken => "Kraken"
  | .cex .bitfinex => "Bitfinex"
  | .cex .upbit => "Upbit"
  | .cex .cryptocom => "Crypto.com"
  | .dex .kyberSwap => "KyberSwap"

/-- Commission rates in percent for the two legs, from src/scanner/mod.rs
(`ArbitrageScanner::extract_commission_rates`). -/
def extractCommissionRates (buyData sellData : PriceData) (overrides : Option FeeOverrides) :
    ℚ × ℚ :=
  let src := match buyData with
    | .cex p => feeRateWithOverrides p.exchange overrides * 100
    | .dex p => feeRateWithOverrides p.exchange overrides * 100
  let dest := match sellData with
    | .cex p => feeRateWithOverrides p.exchange overrides * 100
    | .dex p => feeRateWithOverrides p.exchange overrides * 100
  (src, dest)

/-- Symbol and leg quantities, from src/scanner/mod.rs
(`ArbitrageScanner::extract_quantities`). -/
def extractQuantities : PriceData → PriceData → String × ℚ × ℚ
  | .cex b, .cex s => (b.symbol, b.askQty, s.bidQty)
  | .cex b, .dex s => (b.symbol, b.askQty, s.bidQty)
  | .dex b, .cex s => (b.symbol, b.askQty, s.bidQty)
  | .dex b, .dex s => (b.symbol, b.askQty, s.bidQty)

/-- Buy candidates (effective ask, payload, venue name), from the first half
of src/scanner/mod.rs `find_opportunities`. -/
def buyCandidates (cexPrices : List CexPrice) (dexPrices : List DexPrice)
    (overrides : Option FeeOverrides) : List (ℚ × PriceData × String) :=
  cexPrices.map (fun p =>
    (effectivePriceWithOverrides p.askPrice p.exchange .buy overrides,
     PriceData.cex p, exchangeName p.exchange))
  ++ dexPrices.map (fun p =>
    (effectivePriceWithOverrides p.askPrice p.exchange .buy overrides,
     PriceData.dex p, exchangeName p.exchange))

/-- Sell candidates (effective bid, payload, venue name), from the second half
of src/scanner/mod.rs `find_opportunities`. -/
def sellCandidates (cexPrices : List CexPrice) (dexPrices : List DexPrice)
    (overrides : Option FeeOverrides) : List (ℚ × PriceData × String) :=
  cexPrices.map (fun p =>
    (effectivePriceWithOverrides p.bidPrice p.exchange .sell overrides,
     PriceData.cex p, exchangeName p.exchange))
  ++ dexPrices.map (fun p =>
    (effectivePriceWithOverrides p.bidPrice p.exchange .sell overrides,
     PriceData.dex p, exchangeName p.exchange))

/-- Matching loop of src/scanner/mod.rs `find_opportunities`: buy candidates
sorted ascending, sell candidates sorted descending (both Rust sorts are
stable, as is `List.insertionSort`), then the nested push loop rendered as
`flatMap` over the buys of a `filterMap` over the sells. -/
def findOpportunities (cexPrices : List CexPrice) (dexPrices : List DexPrice)
    (overrides : Option FeeOverrides) : List ArbitrageOpportunity :=
  let buys := List.insertionSort (fun a b : ℚ × PriceData × String => a.1 ≤ b.1)
    (buyCandidates cexPrices dexPrices overrides)
  let sells := List.insertionSort (fun a b : ℚ × PriceData × String => b.1 ≤ a.1)
    (sellCandidates cexPrices dexPrices overrides)
  buys.flatMap (fun bc =>
    sells.filterMap (fun sc =>
      if bc.2.2 = sc.2.2 ∨ sc.1 ≤ bc.1 then none
      else
        let spread := sc.1 - bc.1
        let spreadPercentage := spread / bc.1 * 100
        if spreadPercentage < 1/100 then none
        else
          let q := extractQuantities bc.2.1 sc.2.1
          let executableQuantity := min q.2.1 q.2.2
          let rates := extractCommissionRates bc.2.1 sc.2.1 overrides
          let sourceCommissionQuote := bc.1 * executableQuantity * (rates.1 / 100)
          let destinationCommissionQuote := sc.1 * executableQuantity * (rates.2 / 100)
          some
            { sourceExchange := bc.2.2
              destinationExchange := sc.2.2
              symbol := q.1
              effectiveAsk := bc.1
              effectiveBid := sc.1
              spread := spread
              spreadPercentage := spreadPercentage
              executableQuantity := executableQuantity
              sourceCommissionPercent := rates.1
              destinationCommissionPercent := rates.2
              totalCommissionQuote := sourceCommissionQuote + destinationCommissionQuote
              sourceLeg := bc.2.1
              destinationLeg := sc.2.1 }))

/-- Public computation entry, from src/scanner/mod.rs
(`ArbitrageScanner::opportunities_from_prices`); it forwards to
`find_opportunities` without sorting the result. -/
def opportunitiesFromPrices (cexPrices : List CexPrice) (dexPrices : List DexPrice)
    (overrides : Option FeeOverrides) : List ArbitrageOpportunity :=
  findOpportunities cexPrices dexPrices overrides

/-- Final sort applied by `scan_arbitrage_opportunities` and by the websocket
matcher task before a snapshot is emitted (src/scanner/mod.rs, the two
`sort_by` calls on `spread_percentage`): a stable descending sort. -/
def sortOpportunitiesDesc (l : List ArbitrageOpportunity) : List ArbitrageOpportunity :=
  List.insertionSort
    (fun a b : ArbitrageOpportunity => b.spreadPercentage ≤ a.spreadPercentage) l

/-- One-shot scan after the parallel fetches, from src/scanner/mod.rs
(`ArbitrageScanner::scan_arbitrage_opportunities`): compute then sort. -/
def scanArbitrageOpportunitiesPure (cexPrices : List CexPrice) (dexPrices : List DexPrice)
    (overrides : Option FeeOverrides) : List ArbitrageOpportunity :=
  sortOpportunitiesDesc (opportunitiesFromPrices cexPrices dexPrices overrides)

/-- All candidate payloads in source order (helper for stating theorems). -/
def allPriceData (cexPrices : List CexPrice) (dexPrices : List DexPrice) : List PriceData :=
  cexPrices.map PriceData.cex ++ dexPrices.map PriceData.dex

lemma buyCandidates_eq_map (cexPrices : List CexPrice) (dexPrices : List DexPrice)
    (overrides : Option FeeOverrides) :
    buyCandidates cexPrices dexPrices overrides =
      (allPriceData cexPrices dexPrices).map (fun d =>
        (effectivePriceWithOverrides d.askPrice d.exchange .buy overrides,
         d, exchangeName d.exchange)) := by
  simp only [buyCandidates, allPriceData, List.map_append, List.map_map]
  rfl

lemma sellCandidates_eq_map (cexPrices : List CexPrice) (dexPrices : List DexPrice)
    (overrides : Option FeeOverrides) :
    sellCandidates cexPrices dexPrices overrides =
      (allPriceData cexPrices dexPrices).map (fun d =>
        (effectivePriceWithOverrides d.bidPrice d.exchange .sell overrides,
         d, exchangeName d.exchange)) := by
  simp only [sellCandidates, allPriceData, List.map_append, List.map_map]
  rfl

lemma extractQuantities_eq (a b : PriceData) :
    extractQuantities a b = (a.symbol, a.askQty, b.bidQty) := by
  cases a <;> cases b <;> rfl

lemma extractCommissionRates_eq (a b : PriceData) (overrides : Option FeeOverrides) :
    extractCommissionRates a b overrides =
      (feeRateWithOverrides a.exchange overrides * 100,
       feeRateWithOverrides b.exchange overrides * 100) := by
  cases a <;> cases b <;> rfl

/-- C1. An opportunity is emitted by `find_opportunities` for a buy/sell
candidate pair iff the two venue-name strings differ, the effective bid
exceeds the effective ask, and the spread percentage is at least 0.01; and
every emitted opportunity carries exactly the documented field values:
effective ask `ask × (1 + source fee)`, effective bid
`bid × (1 − destination fee)`, spread, spread percentage, executable
quantity `min (source ask_qty) (destination bid_qty)`, and total commission
`effective_ask × qty × source_fee_pct / 100 +
 effective_bid × qty × destination_fee_pct / 100`. -/
theorem findOpportunities_mem_iff (cexPrices : List CexPrice) (dexPrices : List DexPrice)
    (overrides : Option FeeOverrides) (opp : ArbitrageOpportunity) :
    opp ∈ findOpportunities cexPrices dexPrices overrides ↔
      ∃ src ∈ allPriceData cexPrices dexPrices,
      ∃ dst ∈ allPriceData cexPrices dexPrices,
        exchangeName src.exchange ≠ exchangeName dst.exchange ∧
        effectivePriceWithOverrides src.askPrice src.exchange .buy overrides <
          effectivePriceWithOverrides dst.bidPrice dst.exchange .sell overrides ∧
        1/100 ≤ (effectivePriceWithOverrides dst.bidPrice dst.exchange .sell overrides -
            effectivePriceWithOverrides src.askPrice src.exchange .buy overrides) /
            effectivePriceWithOverrides src.askPrice src.exchange .buy overrides * 100 ∧
        opp.sourceExchange = exchangeName src.exchange ∧
        opp.destinationExchange = exchangeName dst.exchange ∧
        opp.symbol = src.symbol ∧
        opp.effectiveAsk = src.askPrice * (1 + feeRateWithOverrides src.exchange overrides) ∧
        opp.effectiveBid = dst.bidPrice * (1 - feeRateWithOverrides dst.exchange overrides) ∧
        opp.spread = opp.effectiveBid - opp.effectiveAsk ∧
        opp.spreadPercentage = opp.spread / opp.effectiveAsk * 100 ∧
        opp.executableQuantity = min src.askQty dst.bidQty ∧
        opp.sourceCommissionPercent = feeRateWithOverrides src.exchange overrides * 100 ∧
        opp.destinationCommissionPercent =
          feeRateWithOverrides dst.exchange overrides * 100 ∧
        opp.totalCommissionQuote =
          opp.effectiveAsk * opp.executableQuantity * (opp.sourceCommissionPercent / 100) +
            opp.effectiveBid * opp.executableQuantity *
              (opp.destinationCommissionPercent / 100) ∧
        opp.sourceLeg = src ∧
        opp.destinationLeg = dst := by
  simp only [findOpportunities, List.mem_flatMap, List.mem_filterMap,
    List.mem_insertionSort, buyCandidates_eq_map, sellCandidates_eq_map, List.mem_map,
    Option.ite_none_left_eq_some, Option.some.injEq, extractQuantities_eq,
    extractCommissionRates_eq, not_or, not_le, not_lt]
  constructor
  · rintro ⟨bc, ⟨src, hsrc, rfl⟩, sc, ⟨⟨dst, hdst, rfl⟩, ⟨hname, hlt⟩, hpct, hopp⟩⟩
    subst hopp
    refine ⟨src, hsrc, dst, hdst, hname, hlt, hpct, rfl, rfl, rfl, rfl, rfl, rfl, rfl, rfl,
      rfl, rfl, rfl, rfl, rfl⟩
  · rintro ⟨src, hsrc, dst, hdst, hname, hlt, hpct, h1, h2, h3, h4, h5, h6, h7, h8, h9,
      h10, h11, h12, h13⟩
    cases opp
    dsimp only at h1 h2 h3 h4 h5 h6 h7 h8 h9 h10 h11 h12 h13
    subst h1 h2 h3 h4 h5 h8 h9 h10 h12 h13
    subst h6 h7 h11
    exact ⟨_, ⟨_, hsrc, rfl⟩, _, ⟨⟨_, hdst, rfl⟩, ⟨hname, hlt⟩, hpct, rfl⟩⟩

/-- Concrete Binance quote used in concrete evaluations. -/
def priceA : CexPrice :=
  { symbol := "BTCUSDT", midPrice := 101/2, bidPrice := 1, askPrice := 100,
    bidQty := 5, askQty := 5, timestamp := 0, exchange := .cex .binance }

/-- Concrete OKX quote used in concrete evaluations. -/
def priceB : CexPrice :=
  { symbol := "BTCUSDT", midPrice := 201/2, bidPrice := 1, askPrice := 200,
    bidQty := 5, askQty := 5, timestamp := 0, exchange := .cex .okx }

/-- Concrete Kraken quote used in concrete evaluations. -/
def priceC : CexPrice :=
  { symbol := "BTCUSDT", midPrice := 500200, bidPrice := 400, askPrice := 1000000,
    bidQty := 5, askQty := 5, timestamp := 0, exchange := .cex .kraken }

/-- Concrete Bybit quote used in concrete evaluations. -/
def priceD : CexPrice :=
  { symbol := "BTCUSDT", midPrice := 500051, bidPrice := 102, askPrice := 1000000,
    bidQty := 5, askQty := 5, timestamp := 0, exchange := .cex .bybit }

/-- Fee overrides pinning every venue fee to zero. -/
def zeroFeeOverrides : FeeOverrides :=
  { cexTaker := fun _ => some 0, dexTaker := fun _ => some 0 }

lemma opportunitiesFromPrices_example_eval :
    (opportunitiesFromPrices [priceA, priceB, priceC, priceD] [] (some zeroFeeOverrides)).map
        ArbitrageOpportunity.spreadPercentage = [300, 2, 100] := by
  norm_num [opportunitiesFromPrices, findOpportunities, buyCandidates, sellCandidates,
    effectivePriceWithOverrides, feeRateWithOverrides, takerFeeRateWithOverrides,
    dexTakerFeeRateWithOverrides, extractQuantities, extractCommissionRates, exchangeName,
    priceA, priceB, priceC, priceD, zeroFeeOverrides, List.insertionSort,
    List.orderedInsert, List.flatMap_cons, List.filterMap_cons]
  simp

/-- C2 counterexample. On a concrete four-venue input the list returned by
`opportunities_from_prices` has spread percentages `[300, 2, 100]`, which is
not sorted descending (the entry at index 1 is smaller than the one at
index 2); the unsorted matching output is returned as is, the sort happens
only in the callers. -/
theorem opportunitiesFromPrices_not_sorted :
    (opportunitiesFromPrices [priceA, priceB, priceC, priceD] [] (some zeroFeeOverrides)).map
        ArbitrageOpportunity.spreadPercentage = [300, 2, 100] ∧
    ¬ (opportunitiesFromPrices [priceA, priceB, priceC, priceD] []
          (some zeroFeeOverrides)).Pairwise
        (fun a b => b.spreadPercentage ≤ a.spreadPercentage) := by
  refine ⟨opportunitiesFromPrices_example_eval, fun h => ?_⟩
  have hmap : (opportunitiesFromPrices [priceA, priceB, priceC, priceD] []
      (some zeroFeeOverrides)).map ArbitrageOpportunity.spreadPercentage = [300, 2, 100] :=
    opportunitiesFromPrices_example_eval
  have h2 : ((opportunitiesFromPrices [priceA, priceB, priceC, priceD] []
      (some zeroFeeOverrides)).map ArbitrageOpportunity.spreadPercentage).Pairwise
        (fun a b : ℚ => b ≤ a) := by
    rw [List.pairwise_map]
    exact h
  rw [hmap] at h2
  have := (List.pairwise_cons.mp (List.pairwise_cons.mp h2).2).1 100 (by simp)
  norm_num at this

/-- C2 amended. The opportunity lists actually handed to the consumer, by
the one-shot scan and by the websocket matcher task, are sorted descending
by spread percentage: both apply the final `sort_by` on `spread_percentage`
to the `opportunities_from_prices` result before emitting it. -/
theorem scanOutput_sorted_by_spread (cexPrices : List CexPrice) (dexPrices : List DexPrice)
    (overrides : Option FeeOverrides) :
    (scanArbitrageOpportunitiesPure cexPrices dexPrices overrides).Pairwise
      (fun a b => b.spreadPercentage ≤ a.spreadPercentage) := by
  have ht : IsTotal ArbitrageOpportunity
      (fun a b => b.spreadPercentage ≤ a.spreadPercentage) := ⟨fun a b => le_total _ _⟩
  have htr : IsTrans ArbitrageOpportunity
      (fun a b => b.spreadPercentage ≤ a.spreadPercentage) :=
    ⟨fun _ _ _ h1 h2 => le_trans h2 h1⟩
  exact @List.sorted_insertionSort _ _ _ ht htr _

/-- Latest-quote cache of the websocket matcher task, from
src/scanner/mod.rs `scan_arbitrage_from_websockets`: the
`HashMap<(Exchange, String), CexPrice>` modelled as an association list. -/
abbrev MatcherCache := List ((Exchange × String) × CexPrice)

/-- Map insert with replacement (the `cache.insert` call of the matcher). -/
def cacheInsert (cache : MatcherCache) (key : Exchange × String) (p : CexPrice) :
    MatcherCache :=
  (key, p) :: cache.filter (fun e => e.1 ≠ key)

/-- One iteration of the matcher loop on an incoming quote, from
src/scanner/mod.rs lines 128-135: invalid quotes (mid, bid or ask ≤ 0) are
skipped, valid ones are upserted under the (venue, symbol) key. -/
def matcherStep (cache : MatcherCache) (price : CexPrice) : MatcherCache :=
  if price.midPrice ≤ 0 ∨ price.bidPrice ≤ 0 ∨ price.askPrice ≤ 0 then cache
  else cacheInsert cache (price.exchange, price.symbol) price

/-- Matcher cache after processing a whole quote stream from the empty cache. -/
def matcherRun (prices : List CexPrice) : MatcherCache :=
  prices.foldl matcherStep []

/-- Validity predicate on quotes used by the matcher (spec section 3). -/
def quoteValid (p : CexPrice) : Prop :=
  0 < p.bidPrice ∧ 0 < p.askPrice ∧ 0 < p.midPrice

lemma matcherStep_preserves (cache : MatcherCache) (price : CexPrice)
    (h : ∀ e ∈ cache, quoteValid e.2) : ∀ e ∈ matcherStep cache price, quoteValid e.2 := by
  intro e he
  by_cases hc : price.midPrice ≤ 0 ∨ price.bidPrice ≤ 0 ∨ price.askPrice ≤ 0
  · rw [matcherStep, if_pos hc] at he
    exact h e he
  · rw [matcherStep, if_neg hc] at he
    push_neg at hc
    rcases List.mem_cons.mp he with he1 | he1
    · rw [he1]
      exact ⟨hc.2.1, hc.2.2, hc.1⟩
    · exact h e (List.mem_of_mem_filter he1)

lemma matcherFold_valid (prices : List CexPrice) (cache : MatcherCache)
    (h : ∀ e ∈ cache, quoteValid e.2) :
    ∀ e ∈ prices.foldl matcherStep cache, quoteValid e.2 := by
  induction prices generalizing cache with
  | nil => exact h
  | cons p rest ih =>
    exact ih (matcherStep cache p) (matcherStep_preserves cache p h)

/-- C3. An invalid incoming quote (bid ≤ 0, ask ≤ 0 or mid ≤ 0) leaves the
matcher cache unchanged — in particular it never overwrites a stored valid
quote — and after processing any quote stream from the empty cache every
stored quote satisfies bid > 0, ask > 0 and mid > 0. -/
theorem matcher_cache_invariant :
    (∀ (cache : MatcherCache) (price : CexPrice),
      price.midPrice ≤ 0 ∨ price.bidPrice ≤ 0 ∨ price.askPrice ≤ 0 →
        matcherStep cache price = cache) ∧
    (∀ prices : List CexPrice, ∀ e ∈ matcherRun prices, quoteValid e.2) := by
  constructor
  · intro cache price h
    rw [matcherStep, if_pos h]
  · intro prices e he
    exact matcherFold_valid prices [] (by simp) e he

/-- Concrete invalid quote (zero bid) used in concrete evaluations. -/
def invalidQuote : CexPrice :=
  { symbol := "BTCUSDT", midPrice := 1/2, bidPrice := 0, askPrice := 1,
    bidQty := 0, askQty := 0, timestamp := 0, exchange := .cex .binance }

/-- C3 witness: the invariant applied at a concrete cache, invalid quote and
one-quote stream. -/
theorem matcher_cache_invariant_witness :
    matcherStep [((Exchange.cex CexExchange.binance, "BTCUSDT"), priceA)] invalidQuote =
        [((Exchange.cex CexExchange.binance, "BTCUSDT"), priceA)] ∧
    quoteValid priceA :=
  ⟨matcher_cache_invariant.1 _ _ (by norm_num [invalidQuote]),
   matcher_cache_invariant.2 [priceA] ((Exchange.cex CexExchange.binance, "BTCUSDT"), priceA)
     (by norm_num [matcherRun, matcherStep, cacheInsert, priceA])⟩

/-- One side of a reconstructed order book, from src/cex/cryptocom/mod.rs:
the `BTreeMap<Decimal, Decimal>` (exact-decimal price → size) modelled as an
association list of rationals. -/
abbrev BookSide := List (ℚ × ℚ)

/-- Price-keyed lookup on a book side (helper for stating theorems). -/
def sideLookup (m : BookSide) (price : ℚ) : Option ℚ :=
  (m.find? (fun e => e.1 == price)).map (fun e => e.2)

/-- Application of one parsed (price, size) level, from `apply_levels` in
src/cex/cryptocom/mod.rs: size zero removes the price, nonzero size upserts
it (the `BTreeMap` remove/insert pair on the association list). -/
def applyLevel (m : BookSide) (lvl : ℚ × ℚ) : BookSide :=
  if lvl.2 = 0 then m.filter (fun e => e.1 ≠ lvl.1)
  else (lvl.1, lvl.2) :: m.filter (fun e => e.1 ≠ lvl.1)

/-- Application of a list of levels, from the `for level in arr` loop of
`apply_levels`. -/
def applyLevels (m : BookSide) (levels : List (ℚ × ℚ)) : BookSide :=
  levels.foldl applyLevel m

/-- Highest-price entry of a side (the `bids.iter().rev().next()` call of
`best_bid_ask`). -/
def maxKeyEntry : BookSide → Option (ℚ × ℚ)
  | [] => none
  | e :: rest =>
    match maxKeyEntry rest with
    | none => some e
    | some m => if e.1 < m.1 then some m else some e

/-- Lowest-price entry of a side (the `asks.iter().next()` call of
`best_bid_ask`). -/
def minKeyEntry : BookSide → Option (ℚ × ℚ)
  | [] => none
  | e :: rest =>
    match minKeyEntry rest with
    | none => some e
    | some m => if m.1 < e.1 then some m else some e

/-- Best-of-book extraction, from `best_bid_ask` in src/cex/cryptocom/mod.rs:
top entry of each side; `none` when a side is empty or a best price is ≤ 0
(the Decimal → string → f64 round-trip is the identity on these values). -/
def bestBidAsk (bids asks : BookSide) : Option (ℚ × ℚ × ℚ × ℚ) :=
  match maxKeyEntry bids, minKeyEntry asks with
  | some b, some a => if b.1 ≤ 0 ∨ a.1 ≤ 0 then none else some (b.1, a.1, b.2, a.2)
  | _, _ => none

/-- Frame routing of the cryptocom stream loop, src/cex/cryptocom/mod.rs
lines 329-350: a delta frame (channel "book.update") applies its levels to
the current book, any other frame clears both sides before applying. -/
def processBookFrame (channel : Option String) (dataBids dataAsks : List (ℚ × ℚ))
    (book : BookSide × BookSide) : BookSide × BookSide :=
  if channel = some "book.update" then
    (applyLevels book.1 dataBids, applyLevels book.2 dataAsks)
  else
    (applyLevels [] dataBids, applyLevels [] dataAsks)

lemma sideLookup_filter_ne (m : BookSide) (p r : ℚ) (h : r ≠ p) :
    sideLookup (m.filter (fun e => e.1 ≠ p)) r = sideLookup m r := by
  induction m with
  | nil => rfl
  | cons e rest ih =>
    by_cases he : e.1 = p
    · have hr : (e.1 == r) = false := by
        simp [he]
        exact fun hc => h hc.symm
      simp only [sideLookup, List.filter_cons, List.find?_cons] at ih ⊢
      rw [if_neg (by simp [he]), hr]
      exact ih
    · simp only [sideLookup, List.filter_cons, List.find?_cons] at ih ⊢
      rw [if_pos (by simp [he])]
      simp only [List.find?_cons]
      by_cases hr : e.1 = r
      · simp [hr]
      · rw [show (e.1 == r) = false by simp [hr]]
        exact ih

lemma maxKeyEntry_none_iff (m : BookSide) : maxKeyEntry m = none ↔ m = [] := by
  cases m with
  | nil => simp [maxKeyEntry]
  | cons e rest =>
    simp only [maxKeyEntry]
    constructor
    · intro h
      exfalso
      cases hm : maxKeyEntry rest with
      | none => simp [hm] at h
      | some g => by_cases hlt : e.1 < g.1 <;> simp [hm, hlt] at h
    · intro h
      exact absurd h (List.cons_ne_nil e rest)

lemma maxKeyEntry_mem (m : BookSide) (e : ℚ × ℚ) (h : maxKeyEntry m = some e) : e ∈ m := by
  induction m generalizing e with
  | nil => cases h
  | cons f rest ih =>
    simp only [maxKeyEntry] at h
    cases hm : maxKeyEntry rest with
    | none =>
      simp [hm] at h
      rw [← h]
      exact List.mem_cons_self _ _
    | some g =>
      by_cases hlt : f.1 < g.1
      · simp [hm, hlt] at h
        rw [← h]
        exact List.mem_cons_of_mem _ (ih _ hm)
      · simp [hm, hlt] at h
        rw [← h]
        exact List.mem_cons_self _ _

lemma maxKeyEntry_ge (m : BookSide) (e : ℚ × ℚ) (h : maxKeyEntry m = some e) :
    ∀ f ∈ m, f.1 ≤ e.1 := by
  induction m generalizing e with
  | nil => cases h
  | cons g rest ih =>
    intro f hf
    simp only [maxKeyEntry] at h
    cases hm : maxKeyEntry rest with
    | none =>
      simp [hm] at h
      rcases List.mem_cons.mp hf with hf1 | hf1
      · rw [hf1, ← h]
      · rw [(maxKeyEntry_none_iff rest).mp hm] at hf1
        cases hf1
    | some k =>
      by_cases hlt : g.1 < k.1
      · simp [hm, hlt] at h
        rcases List.mem_cons.mp hf with hf1 | hf1
        · rw [hf1, ← h]
          exact le_of_lt hlt
        · rw [← h]
          exact ih _ hm f hf1
      · simp [hm, hlt] at h
        rcases List.mem_cons.mp hf with hf1 | hf1
        · rw [hf1, ← h]
        · rw [← h]
          exact le_trans (ih _ hm f hf1) (le_of_not_lt hlt)

lemma minKeyEntry_none_iff (m : BookSide) : minKeyEntry m = none ↔ m = [] := by
  cases m with
  | nil => simp [minKeyEntry]
  | cons e rest =>
    simp only [minKeyEntry]
    constructor
    · intro h
      exfalso
      cases hm : minKeyEntry rest with
      | none => simp [hm] at h
      | some g => by_cases hlt : g.1 < e.1 <;> simp [hm, hlt] at h
    · intro h
      exact absurd h (List.cons_ne_nil e rest)

lemma minKeyEntry_mem (m : BookSide) (e : ℚ × ℚ) (h : minKeyEntry m = some e) : e ∈ m := by
  induction m generalizing e with
  | nil => cases h
  | cons f rest ih =>
    simp only [minKeyEntry] at h
    cases hm : minKeyEntry rest with
    | none =>
      simp [hm] at h
      rw [← h]
      exact List.mem_cons_self _ _
    | some g =>
      by_cases hlt : g.1 < f.1
      · simp [hm, hlt] at h
        rw [← h]
        exact List.mem_cons_of_mem _ (ih _ hm)
      · simp [hm, hlt] at h
        rw [← h]
        exact List.mem_cons_self _ _

lemma minKeyEntry_le (m : BookSide) (e : ℚ × ℚ) (h : minKeyEntry m = some e) :
    ∀ f ∈ m, e.1 ≤ f.1 := by
  induction m generalizing e with
  | nil => cases h
  | cons g rest ih =>
    intro f hf
    simp only [minKeyEntry] at h
    cases hm : minKeyEntry rest with
    | none =>
      simp [hm] at h
      rcases List.mem_cons.mp hf with hf1 | hf1
      · rw [hf1, ← h]
      · rw [(minKeyEntry_none_iff rest).mp hm] at hf1
        cases hf1
    | some k =>
      by_cases hlt : k.1 < g.1
      · simp [hm, hlt] at h
        rcases List.mem_cons.mp hf with hf1 | hf1
        · rw [hf1, ← h]
          exact le_of_lt hlt
        · rw [← h]
          exact ih _ hm f hf1
      · simp [hm, hlt] at h
        rcases List.mem_cons.mp hf with hf1 | hf1
        · rw [hf1, ← h]
        · rw [← h]
          exact le_trans (le_of_not_lt hlt) (ih _ hm f hf1)

/-- C4. Level application, snapshot/delta routing and best-of-book extraction
of the reconstructed order book: a zero-size level removes its price and a
nonzero one upserts it (other prices untouched); a non-"book.update" frame
replaces the book (clears both sides before applying) while a "book.update"
frame applies on top of the current book; `best_bid_ask` is `none` iff a side
is empty or a best price is ≤ 0, and otherwise returns the highest-price bid
and the lowest-price ask together with their sizes. -/
theorem orderbook_spec :
    (∀ (m : BookSide) (p : ℚ), sideLookup (applyLevel m (p, 0)) p = none) ∧
    (∀ (m : BookSide) (p q : ℚ), q ≠ 0 → sideLookup (applyLevel m (p, q)) p = some q) ∧
    (∀ (m : BookSide) (lvl : ℚ × ℚ) (r : ℚ), r ≠ lvl.1 →
      sideLookup (applyLevel m lvl) r = sideLookup m r) ∧
    (∀ (channel : Option String) (dataBids dataAsks : List (ℚ × ℚ))
        (book : BookSide × BookSide), channel ≠ some "book.update" →
      processBookFrame channel dataBids dataAsks book =
        (applyLevels [] dataBids, applyLevels [] dataAsks)) ∧
    (∀ (dataBids dataAsks : List (ℚ × ℚ)) (book : BookSide × BookSide),
      processBookFrame (some "book.update") dataBids dataAsks book =
        (applyLevels book.1 dataBids, applyLevels book.2 dataAsks)) ∧
    (∀ bids asks : BookSide, bestBidAsk bids asks = none ↔
      bids = [] ∨ asks = [] ∨
        ∃ b a, maxKeyEntry bids = some b ∧ minKeyEntry asks = some a ∧
          (b.1 ≤ 0 ∨ a.1 ≤ 0)) ∧
    (∀ (bids asks : BookSide) (b a bq aq : ℚ),
      bestBidAsk bids asks = some (b, a, bq, aq) →
        (b, bq) ∈ bids ∧ (∀ e ∈ bids, e.1 ≤ b) ∧ (a, aq) ∈ asks ∧
          (∀ e ∈ asks, a ≤ e.1) ∧ 0 < b ∧ 0 < a) := by
  refine ⟨?_, ?_, ?_, ?_, ?_, ?_, ?_⟩
  · intro m p
    rw [applyLevel, if_pos rfl]
    induction m with
    | nil => rfl
    | cons e rest ih =>
      simp only [sideLookup, List.filter_cons] at ih ⊢
      by_cases he : e.1 = p
      · rw [if_neg (by simp [he])]
        exact ih
      · rw [if_pos (by simp [he]), List.find?_cons,
          show (e.1 == p) = false by simp [he]]
        exact ih
  · intro m p q hq
    rw [applyLevel, if_neg hq]
    simp [sideLookup, List.find?_cons]
  · intro m lvl r hr
    have hlr : lvl.1 ≠ r := Ne.symm hr
    rw [applyLevel]
    by_cases hz : lvl.2 = 0
    · rw [if_pos hz]
      exact sideLookup_filter_ne m lvl.1 r hr
    · rw [if_neg hz]
      show sideLookup ((lvl.1, lvl.2) :: m.filter (fun e => e.1 ≠ lvl.1)) r = sideLookup m r
      rw [sideLookup, List.find?_cons_of_neg _ (by simp [hlr])]
      exact sideLookup_filter_ne m lvl.1 r hr
  · intro channel dataBids dataAsks book h
    rw [processBookFrame, if_neg h]
  · intro dataBids dataAsks book
    rw [processBookFrame, if_pos rfl]
  · intro bids asks
    rcases Option.eq_none_or_eq_some (maxKeyEntry bids) with hb | ⟨b0, hb⟩
    · have hbids := (maxKeyEntry_none_iff bids).mp hb
      have hbval : bestBidAsk bids asks = none := by simp only [bestBidAsk, hb]
      rw [hbval]
      simp [hbids]
    · rcases Option.eq_none_or_eq_some (minKeyEntry asks) with ha | ⟨a0, ha⟩
      · have hasks := (minKeyEntry_none_iff asks).mp ha
        have hbval : bestBidAsk bids asks = none := by simp only [bestBidAsk, hb, ha]
        rw [hbval]
        simp [hasks]
      · have hbne : bids ≠ [] := by
          intro hh
          rw [(maxKeyEntry_none_iff bids).mpr hh] at hb
          cases hb
        have hane : asks ≠ [] := by
          intro hh
          rw [(minKeyEntry_none_iff asks).mpr hh] at ha
          cases ha
        have hval : bestBidAsk bids asks =
            if b0.1 ≤ 0 ∨ a0.1 ≤ 0 then none else some (b0.1, a0.1, b0.2, a0.2) := by
          simp only [bestBidAsk, hb, ha]
        rw [hval]
        by_cases hcond : b0.1 ≤ 0 ∨ a0.1 ≤ 0
        · rw [if_pos hcond]
          constructor
          · intro _
            exact Or.inr (Or.inr ⟨b0, a0, hb, ha, hcond⟩)
          · intro _
            rfl
        · rw [if_neg hcond]
          constructor
          · intro h
            cases h
          · rintro (h | h | ⟨b1, a1, hb1, ha1, hcond1⟩)
            · exact absurd h hbne
            · exact absurd h hane
            · rw [hb] at hb1
              rw [ha] at ha1
              cases hb1
              cases ha1
              exact absurd hcond1 hcond
  · intro bids asks b a bq aq h
    rcases Option.eq_none_or_eq_some (maxKeyEntry bids) with hb | ⟨b0, hb⟩
    · rw [show bestBidAsk bids asks = none by simp only [bestBidAsk, hb]] at h
      cases h
    · rcases Option.eq_none_or_eq_some (minKeyEntry asks) with ha | ⟨a0, ha⟩
      · rw [show bestBidAsk bids asks = none by simp only [bestBidAsk, hb, ha]] at h
        cases h
      · have hval : bestBidAsk bids asks =
            if b0.1 ≤ 0 ∨ a0.1 ≤ 0 then none else some (b0.1, a0.1, b0.2, a0.2) := by
          simp only [bestBidAsk, hb, ha]
        rw [hval] at h
        by_cases hcond : b0.1 ≤ 0 ∨ a0.1 ≤ 0
        · rw [if_pos hcond] at h
          cases h
        · rw [if_neg hcond] at h
          push_neg at hcond
          simp only [Option.some.injEq, Prod.mk.injEq] at h
          obtain ⟨hb1, ha1, hbq, haq⟩ := h
          refine ⟨?_, ?_, ?_, ?_, ?_, ?_⟩
          · rw [← hb1, ← hbq, Prod.mk.eta]
            exact maxKeyEntry_mem bids b0 hb
          · intro e he
            rw [← hb1]
            exact maxKeyEntry_ge bids b0 hb e he
          · rw [← ha1, ← haq, Prod.mk.eta]
            exact minKeyEntry_mem asks a0 ha
          · intro e he
            rw [← ha1]
            exact minKeyEntry_le asks a0 ha e he
          · rw [← hb1]
            exact hcond.1
          · rw [← ha1]
            exact hcond.2

/-- C4 witness: the order-book properties applied at the concrete book of
spec scenario 8.5 and at small concrete sides. -/
theorem orderbook_spec_witness :
    ((7 : ℚ) ≠ 0 ∧ sideLookup (applyLevel [] ((5 : ℚ), (7 : ℚ))) 5 = some 7) ∧
    ((3 : ℚ) ≠ (5 : ℚ) ∧
      sideLookup (applyLevel [((3 : ℚ), (1 : ℚ))] ((5 : ℚ), (7 : ℚ))) 3 =
        sideLookup [((3 : ℚ), (1 : ℚ))] 3) ∧
    (some "book.BTC_USDT.10" ≠ some "book.update" ∧
      processBookFrame (some "book.BTC_USDT.10") [(100, 1), (99, 2)] [(101, 3), (102, 4)]
          ([((1 : ℚ), (1 : ℚ))], [((2 : ℚ), (2 : ℚ))]) =
        (applyLevels [] [(100, 1), (99, 2)], applyLevels [] [(101, 3), (102, 4)])) ∧
    (bestBidAsk [((100 : ℚ), (5 : ℚ))] [((102 : ℚ), (4 : ℚ))] = some (100, 102, 5, 4) ∧
      ((100 : ℚ), (5 : ℚ)) ∈ ([((100 : ℚ), (5 : ℚ))] : BookSide) ∧ (0 : ℚ) < 100) := by
  have h1 : (7 : ℚ) ≠ 0 := by norm_num
  have h2 : (3 : ℚ) ≠ (5 : ℚ) := by norm_num
  have h3 : (some "book.BTC_USDT.10" : Option String) ≠ some "book.update" := by simp
  have h4 : bestBidAsk [((100 : ℚ), (5 : ℚ))] [((102 : ℚ), (4 : ℚ))] =
      some (100, 102, 5, 4) := by
    norm_num [bestBidAsk, maxKeyEntry, minKeyEntry]
  have happ := orderbook_spec.2.2.2.2.2.2 [((100 : ℚ), (5 : ℚ))] [((102 : ℚ), (4 : ℚ))]
    100 102 5 4 h4
  exact ⟨⟨h1, orderbook_spec.2.1 [] 5 7 h1⟩,
    ⟨h2, orderbook_spec.2.2.1 [((3 : ℚ), (1 : ℚ))] (5, 7) 3 h2⟩,
    ⟨h3, orderbook_spec.2.2.2.1 _ _ _ _ h3⟩,
    ⟨h4, happ.1, happ.2.2.2.2.1⟩⟩

/-- Override lookup as the spec phrases it (`overrides.get(venue)`),
helper for stating the fee-rate characterization. -/
def overridesLookup (exchange : Exchange) (overrides : Option FeeOverrides) : Option ℚ :=
  overrides.bind (fun o =>
    match exchange with
    | .cex c => o.cexTaker c
    | .dex d => o.dexTaker d)

/-- C7. The fee rate used for a venue is the override entry when present and
the per-venue default table entry otherwise, and the effective price is
`raw × (1 + fee_rate)` for the buy side and `raw × (1 − fee_rate)` for the
sell side. -/
theorem effective_price_spec :
    (∀ (raw : ℚ) (exchange : Exchange) (overrides : Option FeeOverrides),
      effectivePriceWithOverrides raw exchange .buy overrides =
          raw * (1 + feeRateWithOverrides exchange overrides) ∧
      effectivePriceWithOverrides raw exchange .sell overrides =
          raw * (1 - feeRateWithOverrides exchange overrides)) ∧
    (∀ (exchange : Exchange) (overrides : Option FeeOverrides),
      feeRateWithOverrides exchange overrides =
        (overridesLookup exchange overrides).getD (feeRate exchange)) := by
  refine ⟨fun raw exchange overrides => ⟨rfl, rfl⟩, ?_⟩
  intro exchange overrides
  cases overrides with
  | none => cases exchange <;> rfl
  | some o =>
    cases exchange with
    | cex c =>
      cases ho : o.cexTaker c <;>
        simp [feeRateWithOverrides, takerFeeRateWithOverrides, overridesLookup, feeRate, ho]
    | dex d =>
      cases ho : o.dexTaker d <;>
        simp [feeRateWithOverrides, dexTakerFeeRateWithOverrides, overridesLookup, feeRate, ho]

/-- Reconnect loop of `stream_price_websocket` (src/cex/cryptocom/mod.rs
lines 217-238), abstracted over the sequence of connection outcomes:
`true` = the connect succeeded (and the read session later ended),
`false` = the connect failed. The consumer is assumed alive
(`tx.is_closed()` = false) and the trace list bounds how many iterations are
observed. Arguments after the trace are the current backoff (seconds) and the
attempt counter; the result is the number of connection attempts performed
and the list of sleep durations, in order. -/
def runLoop (reconnect : Bool) (maxAttempts : Option ℕ) :
    List Bool → ℕ → ℕ → ℕ × List ℕ
  | [], _, _ => (0, [])
  | true :: rest, _, _ =>
    if reconnect then
      let r := runLoop reconnect maxAttempts rest 1 0
      (r.1 + 1, r.2)
    else (1, [])
  | false :: rest, backoff, attempts =>
    if reconnect then
      let a := attempts + 1
      match maxAttempts with
      | some m =>
        if m ≤ a then (1, [])
        else
          let r := runLoop reconnect maxAttempts rest (min 30 (backoff * 2)) a
          (r.1 + 1, backoff :: r.2)
      | none =>
        let r := runLoop reconnect maxAttempts rest (min 30 (backoff * 2)) a
        (r.1 + 1, backoff :: r.2)
    else (1, [])

/-- C8 counterexample. With `max_attempts = 2`, `reconnect = true` and three
failing connection outcomes available, the loop performs exactly 2 attempts
and a single 1-second sleep before giving up: it exits when the attempt
counter equals (not exceeds) `max_attempts`, and the final failed attempt
does not sleep, contrary to the claim that each failed attempt sleeps and
that the loop only exits once the counter exceeds `max_attempts` (which
would give the trace `(3, [1, 2])`). -/
theorem reconnect_loop_counterexample :
    runLoop true (some 2) [false, false, false] 1 0 = (2, [1]) ∧
    (runLoop true (some 2) [false, false, false] 1 0).2.length ≠
      (runLoop true (some 2) [false, false, false] 1 0).1 ∧
    runLoop true (some 2) [false, false, false] 1 0 ≠ (3, [1, 2]) := by
  refine ⟨?_, ?_, ?_⟩ <;> simp [runLoop]

lemma backoff_step (k : ℕ) : min 30 (min 30 (2 ^ k) * 2) = min 30 (2 ^ (k + 1)) := by
  by_cases h : 2 ^ k ≤ 30
  · rw [min_eq_right h, pow_succ]
  · push_neg at h
    rw [min_eq_left (le_of_lt h), pow_succ]
    have h1 : (30 : ℕ) ≤ 30 * 2 := by norm_num
    have h2 : (30 : ℕ) ≤ 2 ^ k * 2 := le_trans h1 (by omega)
    rw [min_eq_left h1, min_eq_left h2]

lemma runLoop_fail_all (d : ℕ) : ∀ (n k a m : ℕ), d = m - a → a < m → d ≤ n →
    runLoop true (some m) (List.replicate n false) (min 30 (2 ^ k)) a =
      (d, (List.range (d - 1)).map (fun i => min 30 (2 ^ (k + i)))) := by
  induction d with
  | zero => intro n k a m h1 h2 h3; omega
  | succ d ih =>
    intro n k a m h1 h2 h3
    obtain ⟨n2, rfl⟩ : ∃ n2, n = n2 + 1 := ⟨n - 1, by omega⟩
    rw [List.replicate_succ]
    by_cases hm : m ≤ a + 1
    · have hd : d = 0 := by omega
      subst hd
      simp [runLoop, hm]
    · have hrec := ih n2 (k + 1) (a + 1) m (by omega) (by omega) (by omega)
      rw [← backoff_step k] at hrec
      have hd1 : 1 ≤ d := by omega
      simp only [runLoop, hrec, if_neg hm, if_true, Prod.mk.injEq, true_and]
      obtain ⟨d2, rfl⟩ : ∃ d2, d = d2 + 1 := ⟨d - 1, by omega⟩
      simp only [Nat.add_sub_cancel, List.range_succ_eq_map, List.map_cons, List.map_map,
        Nat.add_zero]
      congr 1
      refine List.map_congr_left (fun i _ => ?_)
      simp only [Function.comp_apply]
      congr 2
      omega

/-- C8 amended. The backoff starts at 1 second and doubles after each sleep,
saturating at the 30-second cap; with `max_attempts = m ≥ 1` and every
connection attempt failing, the loop performs exactly `m` attempts with the
sleep schedule `1, 2, 4, …` (capped at 30) between consecutive attempts —
so the final attempt, which makes the counter reach `m`, exits without
sleeping — and a successful connect resets the backoff and attempt counter
(the loop continues independently of the accumulated state). -/
theorem reconnect_loop_spec :
    (∀ m n : ℕ, 1 ≤ m → m ≤ n →
      runLoop true (some m) (List.replicate n false) 1 0 =
        (m, (List.range (m - 1)).map (fun i => min 30 (2 ^ i)))) ∧
    (∀ (maxAttempts : Option ℕ) (rest : List Bool) (b a b₂ a₂ : ℕ),
      runLoop true maxAttempts (true :: rest) b a =
        runLoop true maxAttempts (true :: rest) b₂ a₂) := by
  constructor
  · intro m n h1 h2
    have h0 : (1 : ℕ) = min 30 (2 ^ 0) := by norm_num
    rw [h0, runLoop_fail_all m n 0 0 m (by omega) (by omega) h2]
    congr 1
    refine List.map_congr_left (fun i _ => by rw [Nat.zero_add])
  · intro maxAttempts rest b a b₂ a₂
    rfl

/-- C8 witness: the amended reconnect behaviour evaluated at
`max_attempts = 3` over five available failing attempts. -/
theorem reconnect_loop_spec_witness :
    (1 : ℕ) ≤ 3 ∧ (3 : ℕ) ≤ 5 ∧
      runLoop true (some 3) (List.replicate 5 false) 1 0 =
        (3, (List.range 2).map (fun i => min 30 (2 ^ i))) :=
  ⟨by norm_num, by norm_num, reconnect_loop_spec.1 3 5 (by norm_num) (by norm_num)⟩

/-- Error taxonomy (subset needed here), from src/common/errors.rs
(`MarketScannerError`). -/
inductive ScannerErr
  | invalidSymbol (msg : String)
deriving DecidableEq, Repr

/-- Symbol normalization, from src/common/utils.rs `normalize_symbol`:
uppercase, strip dashes and underscores (character-wise; all symbols in
scope are ASCII). -/
def normalizeChars (l : List Char) : List Char :=
  (l.map Char.toUpper).filter (fun c => c ≠ '-' ∧ c ≠ '_')

/-- String wrapper of the normalization. -/
def normalizeSymbol (s : String) : String :=
  String.mk (normalizeChars s.data)

/-- Upbit arm of `format_symbol_for_exchange` (src/common/utils.rs lines
176-222) on the already-normalized character list, together with the shared
empty-symbol check of the enclosing function; slicing `[..k]`/`[k..]` is
`take`/`drop` (byte length = char length on these ASCII symbols). -/
def formatSymbolForUpbit (n : List Char) : Except ScannerErr (List Char) :=
  if n = [] then
    .error (.invalidSymbol "Symbol cannot be empty")
  else if 7 ≤ n.length ∧ ['U', 'S', 'D', 'T'] <:+ n then
    .ok ("USDT-".data ++ n.take (n.length - 4))
  else if 6 ≤ n.length ∧ ['K', 'R', 'W'] <:+ n then
    .ok ("KRW-".data ++ n.take (n.length - 3))
  else if 6 ≤ n.length ∧ ['U', 'S', 'D'] <:+ n then
    .ok ("KRW-".data ++ n.take (n.length - 3))
  else if 6 ≤ n.length ∧ ['B', 'T', 'C'] <:+ n then
    .ok ("BTC-".data ++ n.take (n.length - 3))
  else if ['B', 'T', 'C'] <+: n ∧ 7 ≤ n.length then
    .ok (n.take 3 ++ "-".data ++ n.drop 3)
  else if 6 ≤ n.length then
    let split := if 7 ≤ n.length then n.length - 4 else n.length - 3
    .ok (n.drop split ++ "-".data ++ n.take split)
  else
    .error (.invalidSymbol (String.mk ("Symbol too short for Upbit format: ".data ++ n)))

/-- String-level Upbit symbol encoding
(`format_symbol_for_exchange(symbol, Upbit)`). -/
def formatSymbolUpbit (s : String) : Except ScannerErr String :=
  match formatSymbolForUpbit (normalizeChars s.data) with
  | .ok l => .ok (String.mk l)
  | .error e => .error e

lemma formatSymbolForUpbit_short (n : List Char) (h : n.length < 6) :
    ∃ msg, formatSymbolForUpbit n = .error (.invalidSymbol msg) := by
  by_cases hnil : n = []
  · rw [formatSymbolForUpbit, if_pos hnil]
    exact ⟨_, rfl⟩
  · rw [formatSymbolForUpbit, if_neg hnil,
      if_neg (fun hc => absurd hc.1 (by omega)),
      if_neg (fun hc => absurd hc.1 (by omega)),
      if_neg (fun hc => absurd hc.1 (by omega)),
      if_neg (fun hc => absurd hc.1 (by omega)),
      if_neg (fun hc => absurd hc.2 (by omega)),
      if_neg (show ¬6 ≤ n.length by omega)]
    exact ⟨_, rfl⟩

/-- C9. The Upbit REST symbol encoding reverses quote and base with a dash
separator: `BTCUSDT ↦ USDT-BTC`, `BTCUSD ↦ KRW-BTC` (a hard-coded mapping,
not a currency conversion) and `ETHBTC ↦ BTC-ETH`; any input whose
normalized form is shorter than 6 characters yields an `InvalidSymbol`
error. -/
theorem upbit_symbol_codec :
    formatSymbolUpbit "BTCUSDT" = .ok "USDT-BTC" ∧
    formatSymbolUpbit "BTCUSD" = .ok "KRW-BTC" ∧
    formatSymbolUpbit "ETHBTC" = .ok "BTC-ETH" ∧
    ∀ s : String, (normalizeChars s.data).length < 6 →
      ∃ msg, formatSymbolUpbit s = .error (.invalidSymbol msg) := by
  refine ⟨by rfl, by rfl, by rfl, ?_⟩
  intro s h
  obtain ⟨msg, hmsg⟩ := formatSymbolForUpbit_short (normalizeChars s.data) h
  exact ⟨msg, by rw [formatSymbolUpbit, hmsg]⟩

/-- C9 witness: the short-symbol error case evaluated at the concrete
input "AB". -/
theorem upbit_symbol_codec_witness :
    (normalizeChars "AB".data).length < 6 ∧
      ∃ msg, formatSymbolUpbit "AB" = .error (.invalidSymbol msg) :=
  ⟨by decide, upbit_symbol_codec.2.2.2 "AB" (by decide)⟩

/-- Substitution USDT → UST, from the Bitfinex arm of
`standard_symbol_for_cex_ws_response` in src/common/utils.rs: Rust
`str::replace("USDT", "UST")`, a left-to-right non-overlapping scan over the
ASCII symbol characters. -/
def replaceUSDT : List Char → List Char
  | [] => []
  | [a] => [a]
  | [a, b] => [a, b]
  | [a, b, c] => [a, b, c]
  | a :: b :: c :: d :: rest =>
    if a = 'U' ∧ b = 'S' ∧ c = 'D' ∧ d = 'T' then
      'U' :: 'S' :: 'T' :: replaceUSDT rest
    else
      a :: replaceUSDT (b :: c :: d :: rest)

lemma replaceUSDT_cons_match (rest : List Char) :
    replaceUSDT ('U' :: 'S' :: 'D' :: 'T' :: rest) = 'U' :: 'S' :: 'T' :: replaceUSDT rest := by
  simp [replaceUSDT]

lemma replaceUSDT_cons_nomatch (a b c d : Char) (rest : List Char)
    (h : ¬(a = 'U' ∧ b = 'S' ∧ c = 'D' ∧ d = 'T')) :
    replaceUSDT (a :: b :: c :: d :: rest) = a :: replaceUSDT (b :: c :: d :: rest) := by
  rw [replaceUSDT, if_neg h]

lemma replaceUSDT_suffix : ∀ l : List Char,
    ['U', 'S', 'D', 'T'] <:+ l → ['U', 'S', 'T'] <:+ replaceUSDT l := by
  intro l
  induction l using replaceUSDT.induct with
  | case1 =>
    intro h
    have := h.length_le
    simp at this
  | case2 a =>
    intro h
    have := h.length_le
    simp at this
  | case3 a b =>
    intro h
    have := h.length_le
    simp at this
  | case4 a b c =>
    intro h
    have := h.length_le
    simp at this
  | case5 a b c d rest hmatch ih =>
    intro h
    obtain ⟨ha, hb, hc, hd⟩ := hmatch
    subst ha hb hc hd
    rw [replaceUSDT_cons_match]
    rcases rest with _ | ⟨x, xs⟩
    · simp [replaceUSDT]
    · have hsub : ['U', 'S', 'D', 'T'] <:+ (x :: xs) := by
        obtain ⟨t, ht⟩ := h
        rcases t with _ | ⟨t1, _ | ⟨t2, _ | ⟨t3, _ | ⟨t4, t5⟩⟩⟩⟩
        · have := congrArg List.length ht
          simp at this
        · simp only [List.cons_append, List.nil_append, List.cons.injEq] at ht
          exact absurd ht.2.1.symm (by decide)
        · simp only [List.cons_append, List.nil_append, List.cons.injEq] at ht
          exact absurd ht.2.2.1.symm (by decide)
        · simp only [List.cons_append, List.nil_append, List.cons.injEq] at ht
          exact absurd ht.2.2.2.1.symm (by decide)
        · simp only [List.cons_append, List.cons.injEq] at ht
          exact ⟨t5, ht.2.2.2.2⟩
      exact (((ih hsub).trans (List.suffix_cons 'T' _)).trans
        (List.suffix_cons 'S' _)).trans (List.suffix_cons 'U' _)
  | case6 a b c d rest hnot ih =>
    intro h
    rw [replaceUSDT_cons_nomatch a b c d rest hnot]
    have hsub : ['U', 'S', 'D', 'T'] <:+ (b :: c :: d :: rest) := by
      obtain ⟨t, ht⟩ := h
      rcases t with _ | ⟨t1, t2⟩
      · simp only [List.nil_append] at ht
        injection ht with h1 ht1
        injection ht1 with h2 ht2
        injection ht2 with h3 ht3
        injection ht3 with h4 ht4
        exact absurd ⟨h1.symm, h2.symm, h3.symm, h4.symm⟩ hnot
      · simp only [List.cons_append] at ht
        injection ht with h1 ht1
        exact ⟨t2, ht1⟩
    exact (ih hsub).trans (List.suffix_cons a _)

lemma suffix_UST_not_USDT (x : List Char) (h : ['U', 'S', 'T'] <:+ x) :
    ¬ ['U', 'S', 'D', 'T'] <:+ x := by
  intro h2
  have e1 := List.suffix_iff_eq_drop.mp h
  have e2 := List.suffix_iff_eq_drop.mp h2
  have hlen := h2.length_le
  simp only [List.length_cons, List.length_nil] at e1 e2 hlen
  have e3 : List.drop (x.length - 3) x = List.drop 1 (List.drop (x.length - 4) x) := by
    rw [List.drop_drop]
    congr 1
    omega
  rw [← e2] at e3
  simp only [List.drop_succ_cons, List.drop_zero] at e3
  rw [← e1] at e3
  exact absurd e3 (by decide)

/-- WS response symbol helper, from src/common/utils.rs
`standard_symbol_for_cex_ws_response`: normalize, and on Bitfinex replace a
trailing USDT by UST. -/
def standardSymbolForCexWsResponse (s : String) (exchange : CexExchange) : String :=
  let n := normalizeChars s.data
  if exchange = .bitfinex ∧ ['U', 'S', 'D', 'T'] <:+ n then String.mk (replaceUSDT n)
  else String.mk n

/-- Per-symbol filter of the websocket matcher, from src/scanner/mod.rs lines
139-143: the cache values whose symbol equals the requested one. -/
def collectPricesForSymbol (cache : MatcherCache) (symbol : String) : List CexPrice :=
  (cache.map Prod.snd).filter (fun p => p.symbol = symbol)

/-- C10. On Bitfinex, the WS response-symbol helper rewrites a normalized
symbol ending in USDT by replacing USDT with UST (`BTCUSDT ↦ BTCUST`); the
result never ends in USDT, hence differs from every requested symbol ending
in USDT, and the matcher's per-symbol cache filter for such a requested
symbol never selects a quote carrying the rewritten symbol. -/
theorem bitfinex_ws_symbol_mismatch :
    standardSymbolForCexWsResponse "BTCUSDT" .bitfinex = "BTCUST" ∧
    (∀ s : String, ['U', 'S', 'D', 'T'] <:+ normalizeChars s.data →
      standardSymbolForCexWsResponse s .bitfinex =
        String.mk (replaceUSDT (normalizeChars s.data))) ∧
    (∀ s r : String, ['U', 'S', 'D', 'T'] <:+ normalizeChars s.data →
      ['U', 'S', 'D', 'T'] <:+ r.data →
      standardSymbolForCexWsResponse s .bitfinex ≠ r) ∧
    (∀ (s r : String) (cache : MatcherCache) (p : CexPrice),
      ['U', 'S', 'D', 'T'] <:+ normalizeChars s.data →
      ['U', 'S', 'D', 'T'] <:+ r.data →
      p ∈ collectPricesForSymbol cache r →
      p.symbol ≠ standardSymbolForCexWsResponse s .bitfinex) := by
  have hout : ∀ s : String, ['U', 'S', 'D', 'T'] <:+ normalizeChars s.data →
      standardSymbolForCexWsResponse s .bitfinex =
        String.mk (replaceUSDT (normalizeChars s.data)) := by
    intro s h
    rw [standardSymbolForCexWsResponse]
    exact if_pos ⟨rfl, h⟩
  have hne : ∀ s r : String, ['U', 'S', 'D', 'T'] <:+ normalizeChars s.data →
      ['U', 'S', 'D', 'T'] <:+ r.data →
      standardSymbolForCexWsResponse s .bitfinex ≠ r := by
    intro s r hs hr heq
    rw [hout s hs] at heq
    have hdata : replaceUSDT (normalizeChars s.data) = r.data :=
      congrArg String.data heq
    have hust := replaceUSDT_suffix (normalizeChars s.data) hs
    rw [hdata] at hust
    exact suffix_UST_not_USDT r.data hust hr
  refine ⟨rfl, hout, hne, ?_⟩
  intro s r cache p hs hr hp heq
  have hpr : p.symbol = r := by
    have := List.mem_filter.mp hp
    exact of_decide_eq_true this.2
  rw [hpr] at heq
  exact hne s r hs hr heq.symm

/-- Concrete quote used in the C10 witness. -/
def wsRequestQuote : CexPrice :=
  { symbol := "BTCUSDT", midPrice := 50, bidPrice := 49, askPrice := 51,
    bidQty := 1, askQty := 1, timestamp := 0, exchange := .cex .binance }

/-- C10 witness: the mismatch applied at the concrete request "BTCUSDT"
and a one-entry cache. -/
theorem bitfinex_ws_symbol_mismatch_witness :
    (['U', 'S', 'D', 'T'] <:+ normalizeChars "BTCUSDT".data) ∧
    wsRequestQuote.symbol ≠ standardSymbolForCexWsResponse "BTCUSDT" CexExchange.bitfinex :=
  ⟨by decide,
   bitfinex_ws_symbol_mismatch.2.2.2 "BTCUSDT" "BTCUSDT"
     [((Exchange.cex CexExchange.binance, "BTCUSDT"), wsRequestQuote)] wsRequestQuote
     (by decide) (by decide) (by simp [collectPricesForSymbol, wsRequestQuote])⟩

/-- Chain identifier, from src/dex/chains/chain.rs (`ChainId`), reduced to
the chains referenced here. -/
inductive ChainId
  | ethereum
  | bsc
  | base
deriving DecidableEq, Repr

/-- Token descriptor, from src/dex/chains/tokens/token.rs (`Token`). -/
structure Token where
  address : String
  name : String
  symbol : String
  decimal : ℕ
  chainId : ChainId
deriving DecidableEq, Repr

/-- Ethereum-mainnet USDT, from src/dex/chains/tokens/eth/mod.rs. -/
def usdtToken : Token :=
  { address := "0xdAC17F958D2ee523a2206206994597C13D831ec7", name := "Tether USD",
    symbol := "USDT", decimal := 6, chainId := .ethereum }

/-- Ethereum-mainnet native ETH, from src/dex/chains/tokens/eth/mod.rs. -/
def ethToken : Token :=
  { address := "0xEeeeeEeeeEeEeeEeEeEeeEEEeeeeEeeeeeeeEEeE", name := "Ether",
    symbol := "ETH", decimal := 18, chainId := .ethereum }

/-- Amount builder, from src/dex/kyberswap/utils.rs
`calculate_amount_for_value`: `format!("{:.0}", usd)` followed by `decimals`
zeros, i.e. `usd · 10^decimals` for the integral dollar amounts `get_price`
passes in; modelled numerically. -/
def calculateAmountForValue (usdValue decimals : ℕ) : ℕ :=
  usdValue * 10 ^ decimals

/-- Route query parameters (tokenIn, tokenOut, amountIn in integer wei) as
assembled into the `routes` URLs by `KyberSwap::get_price`. -/
structure RouteQuery where
  tokenIn : String
  tokenOut : String
  amountIn : ℕ
deriving DecidableEq, Repr

/-- The two route queries issued by `KyberSwap::get_price`
(src/dex/kyberswap/mod.rs lines 97-106 for the ask leg, 161-166 for the bid
leg): the ask query — built and sent first — sells base for quote with the
fixed estimate `calculate_amount_for_value(1000, base.decimal)`, and the bid
query swaps quote for base with `calculate_amount_for_value(1000,
quote.decimal)`; neither amount depends on any route response. -/
def getPriceQueries (baseToken quoteToken : Token) : RouteQuery × RouteQuery :=
  ({ tokenIn := baseToken.address, tokenOut := quoteToken.address,
     amountIn := calculateAmountForValue 1000 baseToken.decimal },
   { tokenIn := quoteToken.address, tokenOut := baseToken.address,
     amountIn := calculateAmountForValue 1000 quoteToken.decimal })

/-- C5 evaluation. The ask-leg route query of `KyberSwap::get_price` uses
the fixed $1000-estimate amount `1000 × 10^base.decimal` — for the spec's
scenario (18-decimal base token, bid leg returning `amount_out_wei =
5·10^17`) that is `10^21 ≠ 5·10^17` — and, being a function of the token
descriptors alone (the ask query is issued before the bid query), it cannot
equal the bid leg's `amount_out_wei` in general. -/
theorem kyberswap_ask_leg_uses_fixed_estimate :
    (getPriceQueries ethToken usdtToken).1.amountIn = 1000 * 10 ^ 18 ∧
    (getPriceQueries ethToken usdtToken).1.amountIn ≠ 5 * 10 ^ 17 ∧
    ∀ baseToken quoteToken : Token,
      (getPriceQueries baseToken quoteToken).1.amountIn =
        calculateAmountForValue 1000 baseToken.decimal := by
  refine ⟨rfl, ?_, fun baseToken quoteToken => rfl⟩
  norm_num [getPriceQueries, calculateAmountForValue, ethToken]

/-- Exact wei → decimal conversion: the reference semantics of `wei_to_eth`
(src/dex/kyberswap/utils.rs), which divides the exactly-parsed wei value by
`10^decimals` in decimal arithmetic. -/
def weiToDecimalExact (wei : ℤ) (decimals : ℕ) : ℚ :=
  (wei : ℚ) / 10 ^ decimals

/-- The wei → decimal conversion as `KyberSwap::get_price` actually performs
it (src/dex/kyberswap/mod.rs lines 139-148 and 199-208): the wei string is
parsed into an f64 by `parse_f64` and divided by `10_f64.powi(decimals)`;
`parsedAmount` stands for the f64 value the parse produced. -/
def codeAmountDecimal (parsedAmount : ℚ) (decimals : ℕ) : ℚ :=
  parsedAmount / 10 ^ decimals

/-- Finite IEEE-754 binary64 values viewed as rationals: `m · 2^e` with
`|m| < 2^53`. -/
def float64Representable (q : ℚ) : Prop :=
  ∃ m e : ℤ, |m| < 2 ^ 53 ∧ q = (m : ℚ) * 2 ^ e

lemma pow18_succ_not_representable : ¬ float64Representable ((10 : ℚ) ^ 18 + 1) := by
  rintro ⟨m, e, hm, heq⟩
  rcases le_or_lt 1 e with he | he
  · obtain ⟨t, rfl⟩ : ∃ t : ℕ, e = (t : ℤ) + 1 := ⟨(e - 1).toNat, by omega⟩
    have heq2 : ((10 : ℚ) ^ 18 + 1) = ((m * 2 ^ t * 2 : ℤ) : ℚ) := by
      rw [heq, zpow_add_one₀ (by norm_num : (2 : ℚ) ≠ 0), zpow_natCast]
      push_cast
      ring
    have hint : ((10 : ℤ) ^ 18 + 1) = m * 2 ^ t * 2 := by exact_mod_cast heq2
    have hmod : ((10 : ℤ) ^ 18 + 1) % 2 = 1 := by decide
    rw [hint, Int.mul_emod_left] at hmod
    exact absurd hmod (by decide)
  · obtain ⟨t, rfl⟩ : ∃ t : ℕ, e = -(t : ℤ) := ⟨(-e).toNat, by omega⟩
    have heq2 : ((10 : ℚ) ^ 18 + 1) * 2 ^ t = (m : ℚ) := by
      rw [heq, zpow_neg, zpow_natCast]
      have h2t : ((2 : ℚ) ^ t) ≠ 0 := by positivity
      field_simp
    have hint : ((10 : ℤ) ^ 18 + 1) * 2 ^ t = m := by exact_mod_cast heq2
    have hpow0 : (0 : ℤ) < 2 ^ t := by positivity
    have hpow1 : (1 : ℤ) ≤ 2 ^ t := hpow0
    have h1 : ((10 : ℤ) ^ 18 + 1) ≤ ((10 : ℤ) ^ 18 + 1) * 2 ^ t :=
      le_mul_of_one_le_right (by positivity) hpow1
    have hgt : (2 : ℤ) ^ 53 < (10 : ℤ) ^ 18 + 1 := by norm_num
    have hlt : (2 : ℤ) ^ 53 < m := lt_of_lt_of_le hgt (hint ▸ h1)
    linarith [le_abs_self m]

/-- C6 evaluation. The code parses the wei string into an f64 before
dividing, so for the wei amount `10^18 + 1` — which no binary64 value can
represent — the decimal amount the code computes differs from the exact
reference conversion (`wei_to_eth` semantics) whatever value the parse
produced. -/
theorem kyberswap_float_conversion_lossy :
    (¬ float64Representable ((10 : ℚ) ^ 18 + 1)) ∧
    ∀ x : ℚ, float64Representable x →
      codeAmountDecimal x 6 ≠ weiToDecimalExact (10 ^ 18 + 1) 6 := by
  refine ⟨pow18_succ_not_representable, ?_⟩
  intro x hx heq
  apply pow18_succ_not_representable
  have hx10 : x = (10 : ℚ) ^ 18 + 1 := by
    rw [codeAmountDecimal, weiToDecimalExact] at heq
    push_cast at heq
    field_simp at heq
    linarith
  rw [← hx10]
  exact hx

lemma pow18_representable : float64Representable ((10 : ℚ) ^ 18) :=
  ⟨5 ^ 18, 18, by norm_num, by norm_num⟩

/-- C6 witness: the lossiness statement applied at the representable parsed
value `10^18` (the nearest double to the wei string "1000000000000000001"). -/
theorem kyberswap_float_conversion_lossy_witness :
    float64Representable ((10 : ℚ) ^ 18) ∧
    codeAmountDecimal ((10 : ℚ) ^ 18) 6 ≠ weiToDecimalExact (10 ^ 18 + 1) 6 :=
  ⟨pow18_representable,
   kyberswap_float_conversion_lossy.2 ((10 : ℚ) ^ 18) pow18_representable⟩

end MarketScanner
